import Mathlib

/-!
Verification of the block-header / compact-target utilities (blockchain.py).

This file gives a shallow embedding of the pure core of the module:
the compact codec (compact / uncompact), the difficulty conversions
(bits_to_difficulty / difficulty_to_bits, including the decimal-context
handling performed by the enough_decimal_precision context manager and
the value semantics of Python decimal division at a given precision),
and the BlockHeader hashing method calculate_hash.

Modelling conventions:
- Byte strings are lists of naturals (each element a byte value).
- Python exceptions are represented by an explicit error result; a
  function that can raise returns a PyResult.  Where a loop can fail to
  terminate (the base-256 loop applied to a negative number), the
  function takes a fuel argument and returns none when the fuel is
  exhausted, so divergence is visible as "none for every fuel".
- A Python Decimal value is represented by a coefficient/exponent pair
  (structure Dec, value = coeff * 10 ^ exp), mirroring the internal
  representation of Decimal; Dec.toQ gives its numeric value.  Decimal
  division at precision p is transcribed from the reference
  implementation of Decimal.__truediv__ (shift/divmod, the +1 tie-break
  adjustment when the remainder is nonzero, removal of trailing zeros in
  the exact case, and the final rounding of the coefficient to p
  significant digits with round-half-even).
- The ambient decimal context is reduced to its precision field
  (structure DecCtx) and is passed in and out of the two conversion
  functions explicitly; the generator-based context manager elevates the
  precision on entry and runs its restore line only on a normal exit.
- The header's time field is stored as the (second-resolution) Unix
  timestamp that time.mktime(self.time.timetuple()) produces for the
  stored calendar time; the calendar/timestamp conversion itself is
  external to the embedding.
- The SHA256 implementation is a parameter of calculate_hash in the
  source (sha_impl) and is likewise a function parameter here, taken to
  be a pure function from byte strings to byte strings.
-/

/-- Value of a byte string read as a big-endian unsigned integer.
This is the arithmetic content of bytes_to_long:
long(binascii.hexlify(value), 16). -/
def beVal (l : List Nat) : Nat :=
  l.foldl (fun acc b => acc * 256 + b) 0

/-- bytes_to_long: converts the bytestring to an integer.  On the empty
string, long(binascii.hexlify(b''), 16) = long('', 16) raises ValueError,
modelled as none. -/
def bytes_to_long (value : List Nat) : Option Nat :=
  match value with
  | [] => none
  | x :: xs => some (beVal (x :: xs))

/-- Big-endian base-256 digit expansion, the loop
while number: number, byte = divmod(long(number), 256); base256.insert(0, byte).
The fuel argument bounds the iteration count; compact passes number+1,
which always exceeds the number of base-256 digits of a natural number,
so the fuel never runs out for the call sites below. -/
def base256Aux : Nat → Nat → List Nat → List Nat
  | 0, _, acc => acc
  | fuel + 1, n, acc => if n = 0 then acc else base256Aux fuel (n / 256) (n % 256 :: acc)

/-- compact: returns the compact representation of a number (blockchain.py
lines 49-68).  For number = 0 the loop leaves base256 empty and the guard
base256[0] > 127 raises IndexError, modelled as none. -/
def compact (number : Nat) : Option (List Nat) :=
  let base256 := base256Aux (number + 1) number []
  match base256 with
  | [] => none
  | b0 :: rest =>
    let base256 := if 127 < b0 then 0 :: b0 :: rest else b0 :: rest
    let length := base256.length
    some (length :: (base256 ++ List.replicate (3 - length) 0).take 3)

/-- uncompact: returns the value from its compact representation
(blockchain.py lines 71-79).  The first byte is the length; the rest is
zero-padded on the right up to that length when shorter, and the result
is read big-endian.  On the empty string, value[0] raises IndexError,
modelled as none; an empty remainder with length 0 makes bytes_to_long
raise ValueError, also none. -/
def uncompact (value : List Nat) : Option Nat :=
  match value with
  | [] => none
  | length :: rest =>
    let v := if rest.length < length then rest ++ List.replicate (length - rest.length) 0 else rest
    bytes_to_long v

/-- MAX_TARGET = uncompact(b'\x1d\x00\xff\xff') (blockchain.py line 84).
The source binds the unwrapped integer; the call provably succeeds. -/
def MAX_TARGET : Nat :=
  (uncompact [0x1d, 0x00, 0xff, 0xff]).getD 0

/-- Number of decimal digits of a natural number, len(str(n)); fueled
structural recursion (the fuel n+1 always suffices). -/
def numDigitsAux : Nat → Nat → Nat
  | 0, _ => 0
  | fuel + 1, n => if n < 10 then 1 else numDigitsAux fuel (n / 10) + 1

/-- Number of decimal digits of a natural number, len(str(n)). -/
def numDigits (n : Nat) : Nat := numDigitsAux (n + 1) n

/-- The default digits argument of enough_decimal_precision:
len(str(2 ** 256)). -/
def default_digits : Nat := numDigits (2 ^ 256)

/-- The ambient decimal arithmetic context, reduced to the precision
field that enough_decimal_precision manipulates. -/
structure DecCtx where
  prec : Nat
deriving DecidableEq

/-- enough_decimal_precision (blockchain.py lines 87-104): the context
installed for the body.  On entry the manager copies the current context
with prec raised to the digits bound when it is lower; the body then
runs under this context.  (The restore after the yield runs only on a
normal exit; the callers below model that explicitly.) -/
def enough_decimal_precision (ctx : DecCtx) : DecCtx :=
  if ctx.prec < default_digits then { prec := default_digits } else ctx

/-- Python exceptions that the embedded code can raise. -/
inductive PyErr
  | valueError
  | indexError
  | divisionByZero
deriving DecidableEq

/-- Result of a Python call: a value or a raised exception. -/
inductive PyResult (α : Type)
  | ok (val : α)
  | err (e : PyErr)
deriving DecidableEq

/-- Whether a result is a normal return. -/
def PyResult.isOk {α : Type} : PyResult α → Bool
  | .ok _ => true
  | .err _ => false

/-- A Python Decimal value: coefficient and exponent, numeric value
coeff * 10 ^ exp (the sign is carried by the coefficient). -/
structure Dec where
  coeff : Int
  exp : Int
deriving DecidableEq

/-- Numeric value of a Decimal. -/
def Dec.toQ (d : Dec) : ℚ := (d.coeff : ℚ) * 10 ^ d.exp

/-- Round n / d to the nearest integer, ties to even (the final
coefficient rounding used by decimal division under ROUND_HALF_EVEN). -/
def roundHalfEvenDiv (n d : Nat) : Nat :=
  let q := n / d
  let r := n % d
  if 2 * r < d then q
  else if d < 2 * r then q + 1
  else if q % 2 = 0 then q else q + 1

/-- Removal of trailing zero digits in the exact-division case:
while exp < ideal_exp and coeff % 10 == 0: coeff //= 10; exp += 1
(ideal exponent 0 for integer operands).  The fuel bounds the strip
count; -exp strips at most are possible, so passing the shift suffices. -/
def stripZeros : Nat → Nat → Int → Nat × Int
  | 0, c, e => (c, e)
  | fuel + 1, c, e =>
    if e < 0 ∧ c % 10 = 0 then stripZeros fuel (c / 10) (e + 1) else (c, e)

/-- Final rounding of a coefficient/exponent pair to at most p
significant digits (the _fix step of decimal arithmetic), ties to even. -/
def fixRound (p c : Nat) (e : Int) : Dec :=
  let nd := numDigits c
  if nd ≤ p then { coeff := (c : Int), exp := e }
  else { coeff := (roundHalfEvenDiv c (10 ^ (nd - p)) : Int), exp := e + (nd - p : Nat) }

/-- Division of two positive integers as Python Decimal division at
precision p (ROUND_HALF_EVEN), transcribed from Decimal.__truediv__:
shift = len(str(b)) - len(str(a)) + p + 1, integer divmod after scaling
by 10^shift, a +1 adjustment of the quotient when the remainder is
nonzero and the quotient is a multiple of 5 (so that the final rounding
of the lengthened quotient is the correctly rounded result), removal of
trailing zeros toward the ideal exponent when the division is exact, and
the final coefficient rounding to p significant digits. -/
def pyDecDivPos (p a b : Nat) : Dec :=
  let shift : Int := (numDigits b : Int) - (numDigits a : Int) + (p : Int) + 1
  let A : Nat := if 0 ≤ shift then a * 10 ^ shift.toNat else a
  let B : Nat := if 0 ≤ shift then b else b * 10 ^ (-shift).toNat
  let coeff := A / B
  let exp : Int := -shift
  if A % B = 0 then
    let ce := stripZeros shift.toNat coeff exp
    fixRound p ce.1 ce.2
  else
    fixRound p (if coeff % 5 = 0 then coeff + 1 else coeff) exp

/-- Decimal division a / d for a natural numerator and integer divisor,
with the divisor sign applied to the result; division by zero raises
decimal.DivisionByZero. -/
def pyDecDivInt (p a : Nat) (d : Int) : PyResult Dec :=
  if d = 0 then .err .divisionByZero
  else if 0 < d then .ok (pyDecDivPos p a d.toNat)
  else
    let q := pyDecDivPos p a (-d).toNat
    .ok { coeff := -q.coeff, exp := q.exp }

/-- bits_to_difficulty (blockchain.py lines 107-111): decodes the bits
and divides Decimal(MAX_TARGET) by the target inside the
enough_decimal_precision block.  The returned context is the ambient
decimal context after the call: the saved context on a normal return,
but still the elevated one when the body raised, because the generator
based context manager has no try/finally around its yield and its
restore line is skipped when an exception propagates. -/
def bits_to_difficulty (bits : List Nat) (ctx : DecCtx) : PyResult Dec × DecCtx :=
  let inner := enough_decimal_precision ctx
  match uncompact bits with
  | none => (.err .indexError, inner)
  | some target =>
    match pyDecDivInt inner.prec MAX_TARGET (target : Int) with
    | .err e => (.err e, inner)
    | .ok q => (.ok q, ctx)

/-- int(Decimal): truncation of a Decimal value toward zero, as applied
by long(number) in the first iteration of the compact loop. -/
def pyTruncDec (d : Dec) : Int :=
  if 0 ≤ d.exp then d.coeff * 10 ^ d.exp.toNat
  else Int.tdiv d.coeff (10 ^ (-d.exp).toNat)

/-- The compact base-256 loop over integers, with Python's floor-style
divmod; fueled, none when the fuel runs out (the loop genuinely never
exits once number is a negative integer). -/
def base256IntAux : Nat → Int → List Int → Option (List Int)
  | 0, _, _ => none
  | fuel + 1, n, acc =>
    if n = 0 then some acc
    else base256IntAux fuel (Int.fdiv n 256) (Int.fmod n 256 :: acc)

/-- The while loop of compact applied to a Decimal argument: the loop
guard tests the Decimal for zero, the first body iteration applies
divmod(long(number), 256) to its truncation, after which the loop runs
over integers. -/
def compactLoop (fuel : Nat) (q : Dec) : Option (List Int) :=
  if q.coeff = 0 then some []
  else
    match fuel with
    | 0 => none
    | fuel + 1 =>
      base256IntAux fuel (Int.fdiv (pyTruncDec q) 256) [Int.fmod (pyTruncDec q) 256]

/-- compact applied to the Decimal quotient inside difficulty_to_bits:
outer none = the base-256 loop did not terminate within the fuel; inner
none = the loop produced an empty digit list and base256[0] raised
IndexError. -/
def compactDec (fuel : Nat) (q : Dec) : Option (Option (List Int)) :=
  match compactLoop fuel q with
  | none => none
  | some [] => some none
  | some (b0 :: rest) =>
    let base256 := if 127 < b0 then 0 :: b0 :: rest else b0 :: rest
    let length := base256.length
    some (some ((length : Int) :: (base256 ++ List.replicate (3 - length) 0).take 3))

/-- difficulty_to_bits (blockchain.py lines 114-118): divides
Decimal(MAX_TARGET) by Decimal(difficulty) and compacts the quotient,
all inside the enough_decimal_precision block.  none = the compact loop
diverged (the call never returns); otherwise the pair of the result and
the ambient decimal context after the call, restored only on a normal
return. -/
def difficulty_to_bits (fuel : Nat) (difficulty : Int) (ctx : DecCtx) :
    Option (PyResult (List Int) × DecCtx) :=
  let inner := enough_decimal_precision ctx
  match pyDecDivInt inner.prec MAX_TARGET difficulty with
  | .err e => some (.err e, inner)
  | .ok q =>
    match compactDec fuel q with
    | none => none
    | some none => some (.err .indexError, inner)
    | some (some bits) => some (.ok bits, ctx)

/-- Block header data (blockchain.py class BlockHeader): the fields used
by calculate_hash, with time stored as the derived Unix timestamp. -/
structure BlockHeader where
  height : Option Nat
  version : Nat
  previousblockhash : List Nat
  merkleroot : List Nat
  time : Nat
  bits : List Nat
  nonce : Nat
  hash : Option (List Nat)
deriving DecidableEq

/-- struct.pack('<L', n): the 4-byte little-endian serialization. -/
def le32 (n : Nat) : List Nat :=
  [n % 256, n / 256 % 256, n / 256 ^ 2 % 256, n / 256 ^ 3 % 256]

/-- The serialized header message built by calculate_hash (blockchain.py
lines 241-248). -/
def headerMessage (hdr : BlockHeader) : List Nat :=
  le32 hdr.version ++ hdr.previousblockhash.reverse ++ hdr.merkleroot.reverse ++
    le32 hdr.time ++ hdr.bits.reverse ++ le32 hdr.nonce

/-- calculate_hash (blockchain.py lines 227-255): serializes the header,
applies the hash function twice, byte-reverses the digest, and compares
it as an integer with the decoded target; raises ValueError when the
digest exceeds the target, otherwise stores and returns the reversed
digest.  The second component is the header state after the call; on any
raise the header is returned unchanged (the assignment to self.hash is
not reached). -/
def calculate_hash (sha : List Nat → List Nat) (hdr : BlockHeader) :
    PyResult (List Nat) × BlockHeader :=
  let message := headerMessage hdr
  let h := (sha (sha message)).reverse
  match bytes_to_long h, uncompact hdr.bits with
  | some hv, some target =>
    if target < hv then (.err .valueError, hdr)
    else (.ok h, { hdr with hash := some h })
  | _, _ => (.err .indexError, hdr)

/-- The decoder as claim C3 words it (truncating the mantissa to the
first b[0] bytes when b[0] < 3); stated only to compare with the actual
uncompact, which does not truncate. -/
def uncompactSpec (b : List Nat) : Nat :=
  let length := b.headD 0
  let mantissa := b.drop 1
  beVal (if 3 < length then mantissa ++ List.replicate (length - 3) 0
         else if length < 3 then mantissa.take length else mantissa)

/-- Value of an ok result, 0 for an exception; used to state value
comparisons between conversion results. -/
def decToQ : PyResult Dec → ℚ
  | .ok d => d.toQ
  | .err _ => 0

/-- Fixed test header: version 1, zero parent hash and merkle root,
timestamp 0, the maximum-target bits, nonce 0. -/
def testHeader : BlockHeader :=
  { height := none
    version := 1
    previousblockhash := List.replicate 32 0
    merkleroot := List.replicate 32 0
    time := 0
    bits := [0x1d, 0x00, 0xff, 0xff]
    nonce := 0
    hash := none }

/-- A hash function returning the all-zero digest (smallest possible
candidate hash). -/
def shaZero : List Nat → List Nat := fun _ => List.replicate 32 0

/-- A hash function returning the all-ones digest (largest possible
candidate hash). -/
def shaMax : List Nat → List Nat := fun _ => List.replicate 32 255

section BasicLemmas

/-- Folding the big-endian accumulator from an arbitrary start. -/
theorem foldl_beVal (l : List Nat) (acc : Nat) :
    l.foldl (fun s b => s * 256 + b) acc =
      acc * 256 ^ l.length + l.foldl (fun s b => s * 256 + b) 0 := by
  induction l generalizing acc with
  | nil => simp
  | cons x xs ih =>
    simp only [List.foldl_cons, List.length_cons]
    rw [ih (acc * 256 + x), ih (0 * 256 + x)]
    ring

/-- Big-endian value of a cons cell. -/
theorem beVal_cons (x : Nat) (xs : List Nat) :
    beVal (x :: xs) = x * 256 ^ xs.length + beVal xs := by
  unfold beVal
  simp only [List.foldl_cons]
  rw [foldl_beVal]
  ring_nf

/-- Appending one zero byte multiplies the big-endian value by 256. -/
theorem beVal_append_zero (l : List Nat) : beVal (l ++ [0]) = beVal l * 256 := by
  unfold beVal
  simp [List.foldl_append]

/-- Appending k zero bytes multiplies the big-endian value by 256 ^ k. -/
theorem beVal_append_zeros (l : List Nat) (k : Nat) :
    beVal (l ++ List.replicate k 0) = beVal l * 256 ^ k := by
  induction k with
  | zero => simp
  | succ k ih =>
    rw [List.replicate_succ', ← List.append_assoc, beVal_append_zero, ih]
    ring

/-- The value of uncompact on any 4-byte input: the three mantissa bytes
are read in full and zero-extended on the right by length - 3 bytes (a
vacuous extension when the length byte is at most 3). -/
theorem uncompact_quad (a b c d : Nat) :
    uncompact [a, b, c, d] = some (beVal ([b, c, d] ++ List.replicate (a - 3) 0)) := by
  by_cases h : 3 < a
  · simp [uncompact, bytes_to_long, h]
  · have h3 : a - 3 = 0 := by omega
    have h3' : ¬ ([b, c, d] : List Nat).length < a := by simp; omega
    simp [uncompact, bytes_to_long, h3, h3']

end BasicLemmas

section CompactCodecClaims

/-- C3 (amended): for every 4-byte input, uncompact returns without
error the big-endian value of the three mantissa bytes zero-extended on
the right to b0 bytes when b0 > 3; when b0 ≤ 3 the three mantissa bytes
are interpreted in full (no truncation to the first b0 bytes occurs). -/
theorem C3_uncompact_total (b0 b1 b2 b3 : Nat) :
    uncompact [b0, b1, b2, b3] = some (beVal ([b1, b2, b3] ++ List.replicate (b0 - 3) 0)) :=
  uncompact_quad b0 b1 b2 b3

/-- C3 counterexample: on the 4-byte input [1, 255, 0, 0] the claimed
truncation of the mantissa to its first b0 = 1 byte would give 255, but
uncompact reads all three mantissa bytes and returns 16711680. -/
theorem C3_counterexample :
    uncompact [1, 255, 0, 0] = some 16711680 ∧
    uncompactSpec [1, 255, 0, 0] = 255 ∧ (16711680 : Nat) ≠ 255 := by decide

/-- C2 (code evaluated at the failing input): 127 is encodable with at
most 3 significant mantissa bytes, yet decoding its encoding returns
8323072, not 127: compact saves length 1 but uncompact reads the full
3-byte zero-padded mantissa without truncating it to that length. -/
theorem C2_roundtrip_failure :
    compact 127 = some [1, 127, 0, 0] ∧
    uncompact [1, 127, 0, 0] = some 8323072 ∧ (8323072 : Nat) ≠ 127 := by decide

/-- C5 (code evaluated at the failing input): compact(0) does not return
the zero compact value; the base-256 loop leaves the digit list empty
and the sign-bit guard's subscript base256[0] raises IndexError
(modelled as none). -/
theorem C5_compact_zero_raises : compact 0 = none := by decide

end CompactCodecClaims

section NumDigitsLemmas

/-- The fueled digit counter returns at least 1 when given fuel. -/
theorem numDigitsAux_pos (fuel n : Nat) (h : 0 < fuel) : 1 ≤ numDigitsAux fuel n := by
  cases fuel with
  | zero => omega
  | succ fuel =>
    unfold numDigitsAux
    split <;> omega

/-- Digit-count bounds, by induction on the fuel. -/
theorem numDigitsAux_bounds (fuel : Nat) :
    ∀ n, n < fuel → n < 10 ^ numDigitsAux fuel n ∧ (0 < n → 10 ^ (numDigitsAux fuel n - 1) ≤ n) := by
  induction fuel with
  | zero => intro n h; omega
  | succ fuel ih =>
    intro n h
    by_cases h10 : n < 10
    · unfold numDigitsAux
      rw [if_pos h10]
      constructor
      · simpa using h10
      · intro hn; simpa using hn
    · have hdiv : n / 10 < fuel := by omega
      obtain ⟨ih1, ih2⟩ := ih (n / 10) hdiv
      have hpos : 1 ≤ numDigitsAux fuel (n / 10) :=
        numDigitsAux_pos fuel (n / 10) (by omega)
      unfold numDigitsAux
      rw [if_neg h10]
      constructor
      · rw [pow_succ]
        have hD := ih1
        omega
      · intro _
        have h1 : 10 ^ (numDigitsAux fuel (n / 10) - 1) ≤ n / 10 := ih2 (by omega)
        have h2 : 10 ^ (numDigitsAux fuel (n / 10) - 1) * 10 ≤ (n / 10) * 10 :=
          Nat.mul_le_mul_right 10 h1
        have h3 : 10 ^ (numDigitsAux fuel (n / 10) - 1) * 10 =
            10 ^ (numDigitsAux fuel (n / 10)) := by
          rw [← pow_succ]
          congr 1
          omega
        have h4 : numDigitsAux fuel (n / 10) + 1 - 1 = numDigitsAux fuel (n / 10) := by omega
        rw [h4, ← h3]
        omega

/-- Every natural number is below 10 to its digit count. -/
theorem numDigits_lt (n : Nat) : n < 10 ^ numDigits n :=
  (numDigitsAux_bounds (n + 1) n (by omega)).1

/-- A positive number reaches 10 to its digit count less one. -/
theorem numDigits_le (n : Nat) (h : 0 < n) : 10 ^ (numDigits n - 1) ≤ n :=
  (numDigitsAux_bounds (n + 1) n (by omega)).2 h

/-- The digit count is always at least 1. -/
theorem numDigits_pos (n : Nat) : 1 ≤ numDigits n :=
  numDigitsAux_pos (n + 1) n (by omega)

/-- Sandwiching the digit count of a number between 10^p and 10^(p+2). -/
theorem numDigits_between (p c : Nat) (h1 : 10 ^ p ≤ c) (h2 : c < 10 ^ (p + 2)) :
    p + 1 ≤ numDigits c ∧ numDigits c ≤ p + 2 := by
  constructor
  · have := numDigits_lt c
    have hlt : 10 ^ p < 10 ^ numDigits c := by omega
    have := (Nat.pow_lt_pow_iff_right (by norm_num : 1 < 10)).mp hlt
    omega
  · have hp0 : 0 < 10 ^ p := by positivity
    have hc : 0 < c := by omega
    have := numDigits_le c hc
    have hlt : 10 ^ (numDigits c - 1) < 10 ^ (p + 2) := by omega
    have := (Nat.pow_lt_pow_iff_right (by norm_num : 1 < 10)).mp hlt
    omega

end NumDigitsLemmas

section HeaderClaims

/-- On a 32-byte digest, bytes_to_long succeeds with the big-endian value. -/
theorem bytes_to_long_of_length (l : List Nat) (h : l.length = 32) :
    bytes_to_long l = some (beVal l) := by
  cases l with
  | nil => simp at h
  | cons x xs => rfl

/-- C1: for a header with 32-byte previous-block hash and merkle root
and 4-byte bits, calculate_hash builds the 80-byte message from the
little-endian version, the reversed previous hash, the reversed merkle
root, the little-endian timestamp derived from the stored time, the
reversed bits, and the little-endian nonce; it double-applies the
supplied hash function, byte-reverses the digest, and when the reversed
digest's big-endian value does not exceed the decoded target it stores
the reversed digest in the hash field and returns it. -/
theorem C1_calculate_hash (sha : List Nat → List Nat) (hdr : BlockHeader) (target : Nat)
    (hd : (sha (sha (headerMessage hdr))).length = 32)
    (hp : hdr.previousblockhash.length = 32)
    (hm : hdr.merkleroot.length = 32)
    (hb : hdr.bits.length = 4)
    (ht : uncompact hdr.bits = some target) :
    headerMessage hdr =
      le32 hdr.version ++ hdr.previousblockhash.reverse ++ hdr.merkleroot.reverse ++
        le32 hdr.time ++ hdr.bits.reverse ++ le32 hdr.nonce ∧
    (headerMessage hdr).length = 80 ∧
    (beVal ((sha (sha (headerMessage hdr))).reverse) ≤ target →
      calculate_hash sha hdr =
        (.ok ((sha (sha (headerMessage hdr))).reverse),
         { hdr with hash := some ((sha (sha (headerMessage hdr))).reverse) })) := by
  refine ⟨rfl, ?_, ?_⟩
  · simp [headerMessage, le32, hp, hm, hb]
  · intro hle
    have hrev : ((sha (sha (headerMessage hdr))).reverse).length = 32 := by
      simpa using hd
    have hbl := bytes_to_long_of_length _ hrev
    simp only [calculate_hash]
    rw [hbl, ht]
    dsimp only
    rw [if_neg (by omega)]

/-- C4: under the same well-formedness hypotheses, calculate_hash raises
ValueError and returns the header unchanged (in particular with its
previously stored hash intact) exactly when the candidate hash value
exceeds the decoded target, and returns the reversed digest normally
exactly when it does not. -/
theorem C4_pow_violation (sha : List Nat → List Nat) (hdr : BlockHeader) (target : Nat)
    (hd : (sha (sha (headerMessage hdr))).length = 32)
    (ht : uncompact hdr.bits = some target) :
    (target < beVal ((sha (sha (headerMessage hdr))).reverse) →
      calculate_hash sha hdr = (.err .valueError, hdr)) ∧
    ((calculate_hash sha hdr).1 = .ok ((sha (sha (headerMessage hdr))).reverse) ↔
      beVal ((sha (sha (headerMessage hdr))).reverse) ≤ target) := by
  have hrev : ((sha (sha (headerMessage hdr))).reverse).length = 32 := by
    simpa using hd
  have hbl := bytes_to_long_of_length _ hrev
  simp only [calculate_hash]
  rw [hbl, ht]
  dsimp only
  by_cases hcmp : target < beVal ((sha (sha (headerMessage hdr))).reverse)
  · rw [if_pos hcmp]
    refine ⟨fun _ => rfl, ?_⟩
    constructor
    · intro h
      exact absurd h (by simp)
    · intro h
      omega
  · rw [if_neg hcmp]
    refine ⟨fun hlt => absurd hlt hcmp, ?_⟩
    constructor
    · intro _
      omega
    · intro _
      rfl

/-- C9: calculate_hash never mutates the version, previous-block hash,
merkle root, time, bits, nonce, or height fields, whether it succeeds or
raises; the hash field is the only field it may change. -/
theorem C9_frame (sha : List Nat → List Nat) (hdr : BlockHeader) :
    (calculate_hash sha hdr).2.height = hdr.height ∧
    (calculate_hash sha hdr).2.version = hdr.version ∧
    (calculate_hash sha hdr).2.previousblockhash = hdr.previousblockhash ∧
    (calculate_hash sha hdr).2.merkleroot = hdr.merkleroot ∧
    (calculate_hash sha hdr).2.time = hdr.time ∧
    (calculate_hash sha hdr).2.bits = hdr.bits ∧
    (calculate_hash sha hdr).2.nonce = hdr.nonce := by
  simp only [calculate_hash]
  rcases bytes_to_long ((sha (sha (headerMessage hdr))).reverse) with _ | hv
  · exact ⟨rfl, rfl, rfl, rfl, rfl, rfl, rfl⟩
  · rcases uncompact hdr.bits with _ | t
    · exact ⟨rfl, rfl, rfl, rfl, rfl, rfl, rfl⟩
    · dsimp only
      split
      · exact ⟨rfl, rfl, rfl, rfl, rfl, rfl, rfl⟩
      · exact ⟨rfl, rfl, rfl, rfl, rfl, rfl, rfl⟩

end HeaderClaims

section ConversionClaims

/-- C10: on any 4-byte bits input whose decoded target is zero, the
decimal division inside bits_to_difficulty raises DivisionByZero
instead of returning a difficulty. -/
theorem C10_zero_target (bits : List Nat) (ctx : DecCtx)
    (h4 : bits.length = 4) (h0 : uncompact bits = some 0) :
    (bits_to_difficulty bits ctx).1 = .err .divisionByZero := by
  simp only [bits_to_difficulty]
  rw [h0]
  dsimp only
  simp [pyDecDivInt]

/-- C10 witness at the example input [3, 0, 0, 0]. -/
theorem C10_witness :
    (bits_to_difficulty [3, 0, 0, 0] { prec := 28 }).1 = .err .divisionByZero :=
  C10_zero_target [3, 0, 0, 0] { prec := 28 } (by decide) (by decide)

/-- C7 counterexample: with ambient precision 28, the failing call
bits_to_difficulty([3,0,0,0]) (zero target, DivisionByZero) exits with
the ambient decimal context still at the elevated precision 78: the
generator-based context manager has no try/finally, so its restore line
is skipped on the exception path. -/
theorem C7_counterexample :
    (bits_to_difficulty [3, 0, 0, 0] { prec := 28 }).2 = { prec := 78 } ∧
    ({ prec := 78 } : DecCtx) ≠ ({ prec := 28 } : DecCtx) := by
  constructor
  · decide
  · decide

/-- C7 (amended): both conversions elevate the decimal precision for
the duration of the call and restore the saved context on a normal
return; but when the call exits with an exception, the restore after
the yield is skipped and the elevated context remains installed. -/
theorem C7_scoped_precision :
    (∀ (bits : List Nat) (ctx : DecCtx),
      ((bits_to_difficulty bits ctx).1.isOk = true →
        (bits_to_difficulty bits ctx).2 = ctx) ∧
      ((bits_to_difficulty bits ctx).1.isOk = false →
        (bits_to_difficulty bits ctx).2 = enough_decimal_precision ctx)) ∧
    (∀ (fuel : Nat) (d : Int) (ctx : DecCtx) (r : PyResult (List Int)) (c2 : DecCtx),
      difficulty_to_bits fuel d ctx = some (r, c2) →
      (r.isOk = true → c2 = ctx) ∧
      (r.isOk = false → c2 = enough_decimal_precision ctx)) := by
  constructor
  · intro bits ctx
    simp only [bits_to_difficulty]
    rcases uncompact bits with _ | t
    · dsimp only
      exact ⟨fun h => by simp [PyResult.isOk] at h, fun _ => rfl⟩
    · dsimp only
      rcases pyDecDivInt (enough_decimal_precision ctx).prec MAX_TARGET (t : Int) with q | e
      · dsimp only
        exact ⟨fun _ => rfl, fun h => by simp [PyResult.isOk] at h⟩
      · dsimp only
        exact ⟨fun h => by simp [PyResult.isOk] at h, fun _ => rfl⟩
  · intro fuel d ctx r c2 h
    simp only [difficulty_to_bits] at h
    rcases hq : pyDecDivInt (enough_decimal_precision ctx).prec MAX_TARGET d with q | e
    · rw [hq] at h
      dsimp only at h
      rcases hc : compactDec fuel q with _ | oc
      · rw [hc] at h
        exact absurd h (by simp)
      · rcases oc with _ | bitsv
        · rw [hc] at h
          simp only [Option.some.injEq, Prod.mk.injEq] at h
          obtain ⟨h1, h2⟩ := h
          subst h1
          exact ⟨fun ht => by simp [PyResult.isOk] at ht, fun _ => h2.symm⟩
        · rw [hc] at h
          simp only [Option.some.injEq, Prod.mk.injEq] at h
          obtain ⟨h1, h2⟩ := h
          subst h1
          exact ⟨fun _ => h2.symm, fun ht => by simp [PyResult.isOk] at ht⟩
    · rw [hq] at h
      dsimp only at h
      simp only [Option.some.injEq, Prod.mk.injEq] at h
      obtain ⟨h1, h2⟩ := h
      subst h1
      exact ⟨fun ht => by simp [PyResult.isOk] at ht, fun _ => h2.symm⟩

/-- C7 witness: a normal return restores the saved precision-28
context; an exceptional exit leaves the elevated context installed. -/
theorem C7_witness :
    (bits_to_difficulty [29, 0, 255, 255] { prec := 28 }).2 = { prec := 28 } ∧
    (bits_to_difficulty [3, 0, 0, 0] { prec := 28 }).2 =
      enough_decimal_precision { prec := 28 } ∧
    ({ prec := 78 } : DecCtx) = enough_decimal_precision { prec := 28 } :=
  ⟨(C7_scoped_precision.1 [29, 0, 255, 255] { prec := 28 }).1 (by decide),
   (C7_scoped_precision.1 [3, 0, 0, 0] { prec := 28 }).2 (by decide),
   (C7_scoped_precision.2 1 0 { prec := 28 } (.err .divisionByZero) { prec := 78 }
      (by decide)).2 (by decide)⟩

/-- C6 counterexample: the negative difficulty -(2 * MAX_TARGET) does
not produce an arithmetic-domain error: the decimal division succeeds
with quotient -0.5, long() truncates it to 0, and the call returns the
compact value [1, 0, 0, 0] normally. -/
theorem C6_counterexample :
    (-(2 * (MAX_TARGET : Int)) < 0) ∧
    difficulty_to_bits 2 (-(2 * (MAX_TARGET : Int))) { prec := 28 } =
      some (.ok [1, 0, 0, 0], { prec := 28 }) := by
  constructor
  · decide
  · decide

/-- C6 (amended): difficulty_to_bits fails with the decimal
division-by-zero error when the difficulty is zero; for negative
difficulties no division-by-zero error is raised (the division itself
succeeds, and the call either diverges in the encoding loop or returns
a value). -/
theorem C6_zero_difficulty :
    (∀ (fuel : Nat) (ctx : DecCtx),
      difficulty_to_bits fuel 0 ctx =
        some (.err .divisionByZero, enough_decimal_precision ctx)) ∧
    (∀ (fuel : Nat) (d : Int) (ctx : DecCtx) (pr : PyResult (List Int) × DecCtx),
      d < 0 → difficulty_to_bits fuel d ctx = some pr →
      pr.1 ≠ .err .divisionByZero) := by
  constructor
  · intro fuel ctx
    simp [difficulty_to_bits, pyDecDivInt]
  · intro fuel d ctx pr hd h
    simp only [difficulty_to_bits] at h
    have hne : ¬ d = 0 := by omega
    have hnp : ¬ 0 < d := by omega
    obtain ⟨q, hq⟩ : ∃ q, pyDecDivInt (enough_decimal_precision ctx).prec MAX_TARGET d = .ok q := by
      simp [pyDecDivInt, hne, hnp]
    rw [hq] at h
    dsimp only at h
    rcases hc : compactDec fuel q with _ | oc
    · rw [hc] at h
      exact absurd h (by simp)
    · rcases oc with _ | bitsv
      · rw [hc] at h
        simp only [Option.some.injEq] at h
        rw [← h]
        simp
      · rw [hc] at h
        simp only [Option.some.injEq] at h
        rw [← h]
        simp

/-- C6 witness: the zero case errors with DivisionByZero, and a
concrete negative difficulty is seen (via the amended theorem) not to
produce that error. -/
theorem C6_witness :
    difficulty_to_bits 3 0 { prec := 28 } =
      some (.err .divisionByZero, enough_decimal_precision { prec := 28 }) ∧
    (PyResult.ok ([1, 0, 0, 0] : List Int), ({ prec := 28 } : DecCtx)).1 ≠
      .err .divisionByZero :=
  ⟨C6_zero_difficulty.1 3 { prec := 28 },
   C6_zero_difficulty.2 2 (-(2 * (MAX_TARGET : Int))) { prec := 28 }
     (.ok [1, 0, 0, 0], { prec := 28 }) (by decide) (by decide)⟩

end ConversionClaims

section HeaderWitnesses

/-- C1 witness: on the fixed test header with the all-zero digest
function, the 80-byte length and the successful store-and-return are
obtained from the theorem at a concrete input. -/
theorem C1_witness :
    (headerMessage testHeader).length = 80 ∧
    calculate_hash shaZero testHeader =
      (.ok ((shaZero (shaZero (headerMessage testHeader))).reverse),
       { testHeader with hash := some ((shaZero (shaZero (headerMessage testHeader))).reverse) }) :=
  ⟨(C1_calculate_hash shaZero testHeader MAX_TARGET (by decide) (by decide) (by decide)
      (by decide) (by decide)).2.1,
   (C1_calculate_hash shaZero testHeader MAX_TARGET (by decide) (by decide) (by decide)
      (by decide) (by decide)).2.2 (by decide)⟩

/-- C4 witness: with the all-ones digest function the candidate hash
exceeds the maximum target and calculate_hash raises ValueError leaving
the test header unchanged. -/
theorem C4_witness :
    MAX_TARGET < beVal ((shaMax (shaMax (headerMessage testHeader))).reverse) ∧
    calculate_hash shaMax testHeader = (.err .valueError, testHeader) :=
  ⟨by decide,
   (C4_pow_violation shaMax testHeader MAX_TARGET (by decide) (by decide)).1 (by decide)⟩

end HeaderWitnesses

section DecimalDivisionLemmas

/-- Two-sided bound for round-half-even division: the rounded multiple
of d differs from n by at most d/2 (stated multiplied by 2). -/
theorem roundHalfEvenDiv_bounds (n d : Nat) (hd : 0 < d) :
    2 * roundHalfEvenDiv n d * d ≤ 2 * n + d ∧
    2 * n ≤ 2 * roundHalfEvenDiv n d * d + d := by
  obtain ⟨q, r, rfl, hr⟩ : ∃ q r, n = d * q + r ∧ r < d :=
    ⟨n / d, n % d, (Nat.div_add_mod n d).symm, Nat.mod_lt n hd⟩
  have hq : (d * q + r) / d = q := by
    rw [Nat.mul_add_div hd, Nat.div_eq_of_lt hr, Nat.add_zero]
  have hrm : (d * q + r) % d = r := by
    rw [Nat.mul_add_mod, Nat.mod_eq_of_lt hr]
  unfold roundHalfEvenDiv
  rw [hq, hrm]
  by_cases h1 : 2 * r < d
  · rw [if_pos h1]
    constructor <;> nlinarith
  · rw [if_neg h1]
    by_cases h2 : d < 2 * r
    · rw [if_pos h2]
      constructor <;> nlinarith
    · rw [if_neg h2]
      by_cases h3 : q % 2 = 0
      · rw [if_pos h3]
        constructor <;> nlinarith
      · rw [if_neg h3]
        constructor <;> nlinarith

/-- Stripping trailing zeros keeps the coefficient positive and
preserves the numeric value. -/
theorem stripZeros_spec (fuel : Nat) :
    ∀ (c : Nat) (e : Int), 0 < c →
      0 < (stripZeros fuel c e).1 ∧
      (((stripZeros fuel c e).1 : ℚ) * 10 ^ (stripZeros fuel c e).2 = (c : ℚ) * 10 ^ e) := by
  induction fuel with
  | zero => intro c e hc; exact ⟨hc, rfl⟩
  | succ fuel ih =>
    intro c e hc
    unfold stripZeros
    by_cases h : e < 0 ∧ c % 10 = 0
    · rw [if_pos h]
      have hc10 : 10 ≤ c := by omega
      have hdivpos : 0 < c / 10 := by omega
      obtain ⟨ih1, ih2⟩ := ih (c / 10) (e + 1) hdivpos
      refine ⟨ih1, ?_⟩
      rw [ih2]
      have hcd : ((c / 10 : Nat) : ℚ) * 10 = (c : ℚ) := by
        have hmul : (c / 10) * 10 = c := Nat.div_mul_cancel (Nat.dvd_of_mod_eq_zero h.2)
        exact_mod_cast congrArg (fun x : Nat => (x : ℚ)) hmul
      rw [zpow_add₀ (by norm_num : (10 : ℚ) ≠ 0), zpow_one]
      calc ((c / 10 : Nat) : ℚ) * (10 ^ e * 10)
          = (((c / 10 : Nat) : ℚ) * 10) * 10 ^ e := by ring
        _ = (c : ℚ) * 10 ^ e := by rw [hcd]
    · rw [if_neg h]
      exact ⟨hc, rfl⟩

/-- Relative-error bound for the final coefficient rounding: rounding a
positive coefficient to p significant digits changes the value by at
most 5 parts in 10^p (stated multiplied through by 10^p). -/
theorem fixRound_err (p c : Nat) (e : Int) (hc : 0 < c) :
    ((c : ℚ) * 10 ^ e) * ((10 : ℚ) ^ p - 5) ≤ (fixRound p c e).toQ * (10 : ℚ) ^ p ∧
    (fixRound p c e).toQ * (10 : ℚ) ^ p ≤ ((c : ℚ) * 10 ^ e) * ((10 : ℚ) ^ p + 5) := by
  have h10e : (0 : ℚ) < 10 ^ e := zpow_pos (by norm_num) e
  have hcq : (0 : ℚ) < (c : ℚ) := by exact_mod_cast hc
  have hGpos : (0 : ℚ) < (10 : ℚ) ^ p := by positivity
  unfold fixRound
  by_cases hnd : numDigits c ≤ p
  · rw [if_pos hnd]
    unfold Dec.toQ
    dsimp only
    push_cast
    constructor <;> nlinarith [mul_pos hcq h10e]
  · rw [if_neg hnd]
    have hdrop1 : 1 ≤ numDigits c - p := by omega
    have hDpos : 0 < 10 ^ (numDigits c - p) := Nat.pos_pow_of_pos _ (by norm_num)
    obtain ⟨hR1, hR2⟩ := roundHalfEvenDiv_bounds c (10 ^ (numDigits c - p)) hDpos
    have hc10 : 10 ^ (numDigits c - 1) ≤ c := numDigits_le c hc
    have hkey : 10 ^ (numDigits c - p) * 10 ^ p ≤ 10 * c := by
      have e1 : 10 ^ (numDigits c - p) * 10 ^ p = 10 ^ numDigits c := by
        rw [← pow_add]
        congr 1
        omega
      have e2 : 10 ^ numDigits c = 10 * 10 ^ (numDigits c - 1) := by
        rw [← pow_succ']
        congr 1
        omega
      rw [e1, e2]
      omega
    unfold Dec.toQ
    dsimp only
    have hzp : (10 : ℚ) ^ (e + ((numDigits c - p : Nat) : Int)) =
        10 ^ e * ((10 ^ (numDigits c - p) : Nat) : ℚ) := by
      rw [zpow_add₀ (by norm_num : (10 : ℚ) ≠ 0), zpow_natCast]
      push_cast
      ring
    rw [hzp]
    have hR1q : 2 * ((roundHalfEvenDiv c (10 ^ (numDigits c - p)) : Nat) : ℚ) *
        ((10 ^ (numDigits c - p) : Nat) : ℚ) ≤ 2 * (c : ℚ) + ((10 ^ (numDigits c - p) : Nat) : ℚ) := by
      exact_mod_cast hR1
    have hR2q : 2 * (c : ℚ) ≤ 2 * ((roundHalfEvenDiv c (10 ^ (numDigits c - p)) : Nat) : ℚ) *
        ((10 ^ (numDigits c - p) : Nat) : ℚ) + ((10 ^ (numDigits c - p) : Nat) : ℚ) := by
      exact_mod_cast hR2
    have hkeyq : ((10 ^ (numDigits c - p) : Nat) : ℚ) * (10 : ℚ) ^ p ≤ 10 * (c : ℚ) := by
      have : ((10 ^ (numDigits c - p) * 10 ^ p : Nat) : ℚ) ≤ ((10 * c : Nat) : ℚ) := by
        exact_mod_cast hkey
      push_cast at this
      push_cast
      linarith
    have m1 := mul_le_mul_of_nonneg_right hR2q (le_of_lt (mul_pos hGpos h10e))
    have m1' := mul_le_mul_of_nonneg_right hR1q (le_of_lt (mul_pos hGpos h10e))
    have m2 := mul_le_mul_of_nonneg_right hkeyq (le_of_lt h10e)
    push_cast at m1 m1' m2 ⊢
    constructor
    · nlinarith [m1, m2]
    · nlinarith [m1', m2]

end DecimalDivisionLemmas

section DivisionErrorBound

set_option maxHeartbeats 1600000 in
/-- Relative-error bound for the decimal division model: at precision p
at least the digit count of the numerator, the returned value differs
from the exact quotient a / b by at most 51 parts in 10^p (stated
multiplied through by 10^p and by the denominator). -/
theorem pyDecDivPos_err (p a b : Nat) (ha : 0 < a) (hb : 0 < b) (hap : numDigits a ≤ p) :
    (a : ℚ) * ((10 : ℚ) ^ p - 51) ≤ (pyDecDivPos p a b).toQ * (10 : ℚ) ^ p * b ∧
    (pyDecDivPos p a b).toQ * (10 : ℚ) ^ p * b ≤ (a : ℚ) * ((10 : ℚ) ^ p + 51) := by
  have hn1 : 1 ≤ numDigits a := numDigits_pos a
  have hn2 : 1 ≤ numDigits b := numDigits_pos b
  have hap' : (numDigits a : Int) ≤ (p : Int) := by exact_mod_cast hap
  have hsh : (0 : Int) ≤ (numDigits b : Int) - (numDigits a : Int) + (p : Int) + 1 := by omega
  simp only [pyDecDivPos, if_pos hsh]
  set s : Nat := ((numDigits b : Int) - (numDigits a : Int) + (p : Int) + 1).toNat with hsdef
  have hsInt : (s : Int) = (numDigits b : Int) - (numDigits a : Int) + (p : Int) + 1 := by
    rw [hsdef]
    exact Int.toNat_of_nonneg hsh
  rw [show -((numDigits b : Int) - (numDigits a : Int) + (p : Int) + 1) = -(s : Int) by
    rw [hsInt]]
  have hsNat : numDigits a + s = numDigits b + p + 1 := by omega
  have haL : 10 ^ (numDigits a - 1) ≤ a := numDigits_le a ha
  have haU : a < 10 ^ numDigits a := numDigits_lt a
  have hbL : 10 ^ (numDigits b - 1) ≤ b := numDigits_le b hb
  have hbU : b < 10 ^ numDigits b := numDigits_lt b
  have F1 : 10 ^ p * b < a * 10 ^ s := by
    have e1 : (numDigits a - 1) + s = p + numDigits b := by omega
    calc 10 ^ p * b < 10 ^ p * 10 ^ numDigits b :=
          mul_lt_mul_of_pos_left hbU (by positivity)
      _ = 10 ^ (p + numDigits b) := (pow_add 10 p (numDigits b)).symm
      _ = 10 ^ ((numDigits a - 1) + s) := by rw [e1]
      _ = 10 ^ (numDigits a - 1) * 10 ^ s := pow_add 10 _ _
      _ ≤ a * 10 ^ s := Nat.mul_le_mul_right _ haL
  have F2 : a * 10 ^ s < 10 ^ (p + 2) * b := by
    have e2 : numDigits a + s = (p + 2) + (numDigits b - 1) := by omega
    calc a * 10 ^ s < 10 ^ numDigits a * 10 ^ s :=
          mul_lt_mul_of_pos_right haU (by positivity)
      _ = 10 ^ (numDigits a + s) := (pow_add 10 _ _).symm
      _ = 10 ^ ((p + 2) + (numDigits b - 1)) := by rw [e2]
      _ = 10 ^ (p + 2) * 10 ^ (numDigits b - 1) := pow_add 10 _ _
      _ ≤ 10 ^ (p + 2) * b := Nat.mul_le_mul_left _ hbL
  set A := a * 10 ^ s with hAdef
  have hcoL : 10 ^ p ≤ A / b := (Nat.le_div_iff_mul_le hb).mpr (le_of_lt F1)
  have hcop : 0 < A / b := lt_of_lt_of_le (by positivity) hcoL
  have hAq : (A : ℚ) = (a : ℚ) * (10 : ℚ) ^ (s : Nat) := by
    rw [hAdef]
    push_cast
    ring
  have hEs : (10 : ℚ) ^ (-(s : Int)) * (10 : ℚ) ^ (s : Nat) = 1 := by
    rw [zpow_neg, zpow_natCast]
    exact inv_mul_cancel₀ (by positivity)
  have hAE : (A : ℚ) * (10 : ℚ) ^ (-(s : Int)) = a := by
    rw [hAq]
    calc (a : ℚ) * (10 : ℚ) ^ (s : Nat) * (10 : ℚ) ^ (-(s : Int)) =
        (a : ℚ) * ((10 : ℚ) ^ (-(s : Int)) * (10 : ℚ) ^ (s : Nat)) := by ring
      _ = a := by rw [hEs, mul_one]
  have haq0 : (0 : ℚ) ≤ (a : ℚ) := by positivity
  have hbq : (0 : ℚ) ≤ (b : ℚ) := by positivity
  have hGpos : (0 : ℚ) < (10 : ℚ) ^ p := by positivity
  by_cases hrem : A % b = 0
  · rw [if_pos hrem]
    obtain ⟨hspos, hsval⟩ := stripZeros_spec s (A / b) (-(s : Int)) hcop
    obtain ⟨hfl, hfu⟩ :=
      fixRound_err p (stripZeros s (A / b) (-(s : Int))).1 (stripZeros s (A / b) (-(s : Int))).2 hspos
    rw [hsval] at hfl hfu
    have hdvd : b ∣ A := Nat.dvd_of_mod_eq_zero hrem
    have hexact : ((A / b : Nat) : ℚ) * (b : ℚ) = (A : ℚ) := by
      exact_mod_cast Nat.div_mul_cancel hdvd
    have hwb : ((A / b : Nat) : ℚ) * (10 : ℚ) ^ (-(s : Int)) * b = a := by
      calc ((A / b : Nat) : ℚ) * (10 : ℚ) ^ (-(s : Int)) * b =
          (((A / b : Nat) : ℚ) * b) * (10 : ℚ) ^ (-(s : Int)) := by ring
        _ = (A : ℚ) * (10 : ℚ) ^ (-(s : Int)) := by rw [hexact]
        _ = a := hAE
    have hwbG : ((A / b : Nat) : ℚ) * (10 : ℚ) ^ (-(s : Int)) * b * (10 : ℚ) ^ p =
        (a : ℚ) * (10 : ℚ) ^ p := by rw [hwb]
    have hfl' := mul_le_mul_of_nonneg_right hfl hbq
    have hfu' := mul_le_mul_of_nonneg_right hfu hbq
    constructor
    · nlinarith [hfl', hwbG]
    · nlinarith [hfu', hwbG]
  · rw [if_neg hrem]
    set cAdj := if (A / b) % 5 = 0 then A / b + 1 else A / b with hcadjdef
    have hcaL : A / b ≤ cAdj := by rw [hcadjdef]; split <;> omega
    have hcaU : cAdj ≤ A / b + 1 := by rw [hcadjdef]; split <;> omega
    have hcap : 0 < cAdj := lt_of_lt_of_le hcop hcaL
    obtain ⟨hfl, hfu⟩ := fixRound_err p cAdj (-(s : Int)) hcap
    have hcb1N : cAdj * b ≤ A + b := by
      calc cAdj * b ≤ (A / b + 1) * b := Nat.mul_le_mul_right b hcaU
        _ = A / b * b + b := by ring
        _ ≤ A + b := Nat.add_le_add_right (Nat.div_mul_le_self A b) b
    have hcb2N : A < b * cAdj + b := by
      calc A = b * (A / b) + A % b := (Nat.div_add_mod A b).symm
        _ < b * (A / b) + b := Nat.add_lt_add_left (Nat.mod_lt A hb) _
        _ ≤ b * cAdj + b := Nat.add_le_add_right (Nat.mul_le_mul_left b hcaL) b
    have hcb1 : (cAdj : ℚ) * b ≤ (A : ℚ) + b := by exact_mod_cast hcb1N
    have hcb2 : (A : ℚ) ≤ (b : ℚ) * cAdj + b := by exact_mod_cast le_of_lt hcb2N
    have hE0 : (0 : ℚ) < (10 : ℚ) ^ (-(s : Int)) := zpow_pos (by norm_num) _
    have hw1 : (cAdj : ℚ) * (10 : ℚ) ^ (-(s : Int)) * b ≤
        (a : ℚ) + (b : ℚ) * (10 : ℚ) ^ (-(s : Int)) := by
      have step := mul_le_mul_of_nonneg_right hcb1 (le_of_lt hE0)
      nlinarith [step, hAE]
    have hw2 : (a : ℚ) ≤ (cAdj : ℚ) * (10 : ℚ) ^ (-(s : Int)) * b +
        (b : ℚ) * (10 : ℚ) ^ (-(s : Int)) := by
      have step := mul_le_mul_of_nonneg_right hcb2 (le_of_lt hE0)
      nlinarith [step, hAE]
    have hbEG : (b : ℚ) * (10 : ℚ) ^ (-(s : Int)) * (10 : ℚ) ^ p ≤ a := by
      have hF1q : (10 : ℚ) ^ p * b ≤ (A : ℚ) := by exact_mod_cast le_of_lt F1
      have step := mul_le_mul_of_nonneg_right hF1q (le_of_lt hE0)
      nlinarith [step, hAE]
    have hbE0 : (0 : ℚ) ≤ (b : ℚ) * (10 : ℚ) ^ (-(s : Int)) := by positivity
    have hGge : (10 : ℚ) ≤ (10 : ℚ) ^ p := by
      have hp1 : 1 ≤ p := le_trans (numDigits_pos a) hap
      calc (10 : ℚ) = 10 ^ 1 := (pow_one 10).symm
        _ ≤ 10 ^ p := pow_le_pow_right₀ (by norm_num) hp1
    have hG5 : (0 : ℚ) ≤ (10 : ℚ) ^ p - 5 := by linarith
    have hG5' : (0 : ℚ) ≤ (10 : ℚ) ^ p + 5 := by linarith
    have h10bE := mul_le_mul_of_nonneg_left hGge hbE0
    have hfl' := mul_le_mul_of_nonneg_right hfl hbq
    have hfu' := mul_le_mul_of_nonneg_right hfu hbq
    have hw2s : (a : ℚ) - (b : ℚ) * (10 : ℚ) ^ (-(s : Int)) ≤
        (cAdj : ℚ) * (10 : ℚ) ^ (-(s : Int)) * b := by linarith
    have hw2' := mul_le_mul_of_nonneg_right hw2s hG5
    have hw1' := mul_le_mul_of_nonneg_right hw1 hG5'
    constructor
    · nlinarith [hfl', hw2', hbEG, hbE0, h10bE]
    · nlinarith [hfu', hw1', hbEG, hbE0, h10bE]

end DivisionErrorBound

section MonotonicityClaim

/-- Strict antitonicity of the divided value under the decoded-target
ratio gap 1 + 2^-24, at precision at least 78. -/
theorem pyDecDivPos_anti (p t1 t2 : Nat) (hp : 78 ≤ p) (h1 : 0 < t1) (h2 : 0 < t2)
    (hrat : t1 * (2 ^ 24 + 1) ≤ t2 * 2 ^ 24) :
    (pyDecDivPos p MAX_TARGET t2).toQ < (pyDecDivPos p MAX_TARGET t1).toQ := by
  have hMT : 0 < MAX_TARGET := by decide
  have hnd : numDigits MAX_TARGET ≤ p := by
    have h68 : numDigits MAX_TARGET = 68 := by decide
    omega
  obtain ⟨hL1, hU1⟩ := pyDecDivPos_err p MAX_TARGET t1 hMT h1 hnd
  obtain ⟨hL2, hU2⟩ := pyDecDivPos_err p MAX_TARGET t2 hMT h2 hnd
  have ht1q : (0 : ℚ) < t1 := by exact_mod_cast h1
  have ht2q : (0 : ℚ) < t2 := by exact_mod_cast h2
  have hMq : (0 : ℚ) < (MAX_TARGET : ℚ) := by exact_mod_cast hMT
  have hG78 : (10 : ℚ) ^ 78 ≤ (10 : ℚ) ^ p := pow_le_pow_right₀ (by norm_num) hp
  have hGbig : (102 * 2 ^ 24 + 51 : ℚ) < (10 : ℚ) ^ p := by
    calc (102 * 2 ^ 24 + 51 : ℚ) < 10 ^ 78 := by norm_num
      _ ≤ 10 ^ p := hG78
  have hratq : (t1 : ℚ) * (2 ^ 24 + 1) ≤ (t2 : ℚ) * 2 ^ 24 := by exact_mod_cast hrat
  have k1 := mul_le_mul_of_nonneg_right hL1 (le_of_lt ht2q)
  have k2 := mul_le_mul_of_nonneg_right hU2 (le_of_lt ht1q)
  have h51 : (0 : ℚ) ≤ (10 : ℚ) ^ p - 51 := by linarith
  have m := mul_le_mul_of_nonneg_left hratq h51
  have m2 := mul_le_mul_of_nonneg_left m (le_of_lt hMq)
  have hMt1 : (0 : ℚ) < (MAX_TARGET : ℚ) * t1 := mul_pos hMq ht1q
  have hgap : (0 : ℚ) < (10 : ℚ) ^ p - (102 * 2 ^ 24 + 51) := by linarith
  have hprod := mul_pos hMt1 hgap
  have scaled : (MAX_TARGET : ℚ) * ((10 : ℚ) ^ p + 51) * t1 * 2 ^ 24 <
      (MAX_TARGET : ℚ) * ((10 : ℚ) ^ p - 51) * t2 * 2 ^ 24 := by
    nlinarith [m2, hprod]
  have key : (MAX_TARGET : ℚ) * ((10 : ℚ) ^ p + 51) * t1 <
      (MAX_TARGET : ℚ) * ((10 : ℚ) ^ p - 51) * t2 :=
    (mul_lt_mul_right (by norm_num : (0 : ℚ) < 2 ^ 24)).mp scaled
  have hpos : (0 : ℚ) < (10 : ℚ) ^ p * t1 * t2 := by positivity
  have final : (pyDecDivPos p MAX_TARGET t2).toQ * ((10 : ℚ) ^ p * t1 * t2) <
      (pyDecDivPos p MAX_TARGET t1).toQ * ((10 : ℚ) ^ p * t1 * t2) := by
    nlinarith [k1, k2, key]
  exact (mul_lt_mul_right hpos).mp final

/-- A list of length at least 3 splits off its first three elements. -/
theorem length_three_split (l : List Nat) (h : 3 ≤ l.length) :
    ∃ x y z r, l = x :: y :: z :: r := by
  rcases l with _ | ⟨x, l⟩
  · simp at h
  · rcases l with _ | ⟨y, l⟩
    · simp at h
    · rcases l with _ | ⟨z, r⟩
      · simp at h
      · exact ⟨x, y, z, r, rfl⟩

/-- All digits produced by the base-256 loop are bytes. -/
theorem base256Aux_bytes (fuel : Nat) :
    ∀ (n : Nat) (acc : List Nat), (∀ x ∈ acc, x < 256) →
      ∀ x ∈ base256Aux fuel n acc, x < 256 := by
  induction fuel with
  | zero => intro n acc hacc; simpa [base256Aux] using hacc
  | succ fuel ih =>
    intro n acc hacc
    unfold base256Aux
    by_cases hn : n = 0
    · rw [if_pos hn]; exact hacc
    · rw [if_neg hn]
      apply ih
      intro x hx
      rcases List.mem_cons.mp hx with h | h
      · subst h; exact Nat.mod_lt n (by norm_num)
      · exact hacc x h

/-- Every successful compact encoding is a 4-byte list whose three
mantissa entries are bytes. -/
theorem compact_shape (t : Nat) (b : List Nat) (h : compact t = some b) :
    ∃ L x y z, b = [L, x, y, z] ∧ x < 256 ∧ y < 256 ∧ z < 256 := by
  have hbytes : ∀ x ∈ base256Aux (t + 1) t [], x < 256 :=
    base256Aux_bytes (t + 1) t [] (by simp)
  simp only [compact] at h
  rcases hl : base256Aux (t + 1) t [] with _ | ⟨d, ds⟩
  · rw [hl] at h; exact absurd h (by simp)
  · rw [hl] at h hbytes
    dsimp only at h
    set l2 := if 127 < d then 0 :: d :: ds else d :: ds with hl2def
    have hbytes2 : ∀ x ∈ l2, x < 256 := by
      rw [hl2def]
      split
      · intro x hx
        rcases List.mem_cons.mp hx with h' | h'
        · subst h'; norm_num
        · exact hbytes x h'
      · exact hbytes
    have hplen : 3 ≤ (l2 ++ List.replicate (3 - l2.length) 0).length := by
      simp only [List.length_append, List.length_replicate]
      omega
    obtain ⟨x, y, z, r, hxyz⟩ := length_three_split _ hplen
    have hpad : ∀ w ∈ l2 ++ List.replicate (3 - l2.length) 0, w < 256 := by
      intro w hw
      rcases List.mem_append.mp hw with h' | h'
      · exact hbytes2 w h'
      · have := List.eq_of_mem_replicate h'
        omega
    rw [hxyz] at h hpad
    have hx : x < 256 := hpad x (by simp)
    have hy : y < 256 := hpad y (by simp)
    have hz : z < 256 := hpad z (by simp)
    have htake : (x :: y :: z :: r).take 3 = [x, y, z] := rfl
    rw [htake] at h
    exact ⟨l2.length, x, y, z, (Option.some.inj h).symm, hx, hy, hz⟩

/-- The value of a 3-byte mantissa is below 2^24. -/
theorem beVal_triple_lt (x y z : Nat) (hx : x < 256) (hy : y < 256) (hz : z < 256) :
    beVal [x, y, z] < 2 ^ 24 := by
  have hval : beVal [x, y, z] = ((0 * 256 + x) * 256 + y) * 256 + z := rfl
  omega

/-- Two distinct values of the form mantissa * 256^k with 3-byte
mantissas differ by a relative gap of at least 1 + 2^-24. -/
theorem compact_ratio (m1 k1 m2 k2 : Nat) (hm1 : m1 < 2 ^ 24) (hm2 : m2 < 2 ^ 24)
    (hpos : 0 < m1 * 256 ^ k1) (hlt : m1 * 256 ^ k1 < m2 * 256 ^ k2) :
    m1 * 256 ^ k1 * (2 ^ 24 + 1) ≤ m2 * 256 ^ k2 * 2 ^ 24 := by
  have haux : ∀ u v : Nat, u < v → u < 2 ^ 24 → u * (2 ^ 24 + 1) ≤ v * 2 ^ 24 := by
    intro u v huv hu
    nlinarith
  rcases le_or_lt k1 k2 with hk | hk
  · have hsplit : 256 ^ k2 = 256 ^ (k2 - k1) * 256 ^ k1 := by
      rw [← pow_add]; congr 1; omega
    have hmm : m1 < m2 * 256 ^ (k2 - k1) := by
      by_contra hcon
      push_neg at hcon
      have hmul := Nat.mul_le_mul_right (256 ^ k1) hcon
      rw [hsplit] at hlt
      nlinarith
    have step := haux m1 (m2 * 256 ^ (k2 - k1)) hmm hm1
    calc m1 * 256 ^ k1 * (2 ^ 24 + 1) = m1 * (2 ^ 24 + 1) * 256 ^ k1 := by ring
      _ ≤ m2 * 256 ^ (k2 - k1) * 2 ^ 24 * 256 ^ k1 := Nat.mul_le_mul_right _ step
      _ = m2 * 256 ^ k2 * 2 ^ 24 := by rw [hsplit]; ring
  · have hsplit : 256 ^ k1 = 256 ^ (k1 - k2) * 256 ^ k2 := by
      rw [← pow_add]; congr 1; omega
    have hmm : m1 * 256 ^ (k1 - k2) < m2 := by
      by_contra hcon
      push_neg at hcon
      have hmul := Nat.mul_le_mul_right (256 ^ k2) hcon
      rw [hsplit] at hlt
      nlinarith
    have hM24 : m1 * 256 ^ (k1 - k2) < 2 ^ 24 := lt_trans hmm hm2
    have step := haux (m1 * 256 ^ (k1 - k2)) m2 hmm hM24
    calc m1 * 256 ^ k1 * (2 ^ 24 + 1)
        = m1 * 256 ^ (k1 - k2) * (2 ^ 24 + 1) * 256 ^ k2 := by rw [hsplit]; ring
      _ ≤ m2 * 2 ^ 24 * 256 ^ k2 := Nat.mul_le_mul_right _ step
      _ = m2 * 256 ^ k2 * 2 ^ 24 := by ring

/-- On a successfully decoded positive target, bits_to_difficulty
returns the divided value normally and restores the context. -/
theorem bits_to_difficulty_ok (bits : List Nat) (t : Nat) (ctx : DecCtx)
    (hu : uncompact bits = some t) (ht : 0 < t) :
    bits_to_difficulty bits ctx =
      (.ok (pyDecDivPos (enough_decimal_precision ctx).prec MAX_TARGET t), ctx) := by
  simp only [bits_to_difficulty]
  rw [hu]
  dsimp only
  have htne : ((t : Nat) : Int) ≠ 0 := by exact_mod_cast ht.ne'
  have htpos : (0 : Int) < ((t : Nat) : Int) := by exact_mod_cast ht
  simp [pyDecDivInt, htne, htpos, Int.toNat_natCast]

end MonotonicityClaim

section C8Claim

/-- C8 (amended): for positive targets t1 < t2 that are exactly
representable in the compact encoding (each decodes back from its own
encoding), the difficulty computed from the encoding of the smaller
target is strictly greater than the difficulty computed from the
encoding of the larger target, as numeric decimal values. -/
theorem C8_monotonic (t1 t2 : Nat) (b1 b2 : List Nat) (ctx : DecCtx)
    (h1 : 0 < t1) (h12 : t1 < t2)
    (hc1 : compact t1 = some b1) (hu1 : uncompact b1 = some t1)
    (hc2 : compact t2 = some b2) (hu2 : uncompact b2 = some t2) :
    (bits_to_difficulty b1 ctx).1.isOk = true ∧
    (bits_to_difficulty b2 ctx).1.isOk = true ∧
    decToQ (bits_to_difficulty b2 ctx).1 < decToQ (bits_to_difficulty b1 ctx).1 := by
  have h2 : 0 < t2 := lt_trans h1 h12
  have he1 := bits_to_difficulty_ok b1 t1 ctx hu1 h1
  have he2 := bits_to_difficulty_ok b2 t2 ctx hu2 h2
  have hd78 : default_digits = 78 := by decide
  have hp78 : 78 ≤ (enough_decimal_precision ctx).prec := by
    unfold enough_decimal_precision
    rw [hd78]
    split
    · exact le_refl 78
    · omega
  obtain ⟨L1, x1, y1, z1, hb1, hx1, hy1, hz1⟩ := compact_shape t1 b1 hc1
  obtain ⟨L2, x2, y2, z2, hb2, hx2, hy2, hz2⟩ := compact_shape t2 b2 hc2
  subst hb1
  subst hb2
  rw [uncompact_quad] at hu1 hu2
  have ht1 : beVal [x1, y1, z1] * 256 ^ (L1 - 3) = t1 := by
    have hinj := Option.some.inj hu1
    rw [beVal_append_zeros] at hinj
    exact hinj
  have ht2 : beVal [x2, y2, z2] * 256 ^ (L2 - 3) = t2 := by
    have hinj := Option.some.inj hu2
    rw [beVal_append_zeros] at hinj
    exact hinj
  have hm1 := beVal_triple_lt x1 y1 z1 hx1 hy1 hz1
  have hm2 := beVal_triple_lt x2 y2 z2 hx2 hy2 hz2
  have hrat : t1 * (2 ^ 24 + 1) ≤ t2 * 2 ^ 24 := by
    rw [← ht1, ← ht2]
    exact compact_ratio _ _ _ _ hm1 hm2 (by rw [ht1]; exact h1) (by rw [ht1, ht2]; exact h12)
  refine ⟨?_, ?_, ?_⟩
  · rw [he1]; rfl
  · rw [he2]; rfl
  · rw [he1, he2]
    simp only [decToQ]
    exact pyDecDivPos_anti _ t1 t2 hp78 h1 h2 hrat

/-- C8 witness: the exactly-representable targets 65536 < 131072,
encoded as [3,1,0,0] and [3,2,0,0], give strictly decreasing
difficulties. -/
theorem C8_witness :
    (bits_to_difficulty [3, 1, 0, 0] { prec := 28 }).1.isOk = true ∧
    (bits_to_difficulty [3, 2, 0, 0] { prec := 28 }).1.isOk = true ∧
    decToQ (bits_to_difficulty [3, 2, 0, 0] { prec := 28 }).1 <
      decToQ (bits_to_difficulty [3, 1, 0, 0] { prec := 28 }).1 :=
  C8_monotonic 65536 131072 [3, 1, 0, 0] [3, 2, 0, 0] { prec := 28 }
    (by decide) (by decide) (by decide) (by decide) (by decide) (by decide)

/-- C8 counterexample: for the positive targets 127 < 128 the claimed
strict monotonicity fails in the opposite direction: the encoding of
127 saves length 1, decodes (without truncation) to the larger target
8323072, while the encoding of 128 decodes to 32768, so the difficulty
of compact(127) is strictly smaller than that of compact(128). -/
theorem C8_counterexample :
    (127 : Nat) < 128 ∧
    compact 127 = some [1, 127, 0, 0] ∧
    compact 128 = some [2, 0, 128, 0] ∧
    decToQ (bits_to_difficulty [1, 127, 0, 0] { prec := 28 }).1 <
      decToQ (bits_to_difficulty [2, 0, 128, 0] { prec := 28 }).1 := by
  refine ⟨by norm_num, by decide, by decide, ?_⟩
  have e1 : (bits_to_difficulty [1, 127, 0, 0] { prec := 28 }).1 =
      .ok { coeff := 323913277345327656581085401456625526440368396892087009293416818897637795275591,
            exp := -17 } := by decide
  have e2 : (bits_to_difficulty [2, 0, 128, 0] { prec := 28 }).1 =
      .ok { coeff := 822739724457132247715956919699828837158535728105901003605278720,
            exp := 0 } := by decide
  rw [e1, e2]
  simp only [decToQ, Dec.toQ]
  rw [zpow_zero, mul_one]
  rw [show ((-17 : Int)) = -((17 : Nat) : Int) by norm_num, zpow_neg, zpow_natCast]
  rw [← div_eq_mul_inv, div_lt_iff₀ (by positivity)]
  norm_num

end C8Claim
